import Mathlib

/-!
Verification of the date/time normalization engine of the dashboard
repository (`src/components/column/card.tsx`).

The repository's own copy of `parseRelativeDate` and `tranformToUTC` is not
part of the sources here; only their test suite and callers are.  Those two
routines are therefore modelled from the specification (a shallow embedding
working directly on `List Char`), while the card component's query logic,
diff computation and updated-time label are embedded from the source file.
-/

namespace Card

/-! ## Milliseconds per unit (spec §3: month fixed at 30 days, year at 365) -/

def msSecond : Nat := 1000
def msMinute : Nat := 60 * 1000
def msHour : Nat := 60 * 60 * 1000
def msDay : Nat := 24 * 60 * 60 * 1000
def msWeek : Nat := 7 * msDay
def msMonth : Nat := 30 * msDay
def msYear : Nat := 365 * msDay

/-! ## Digit strings -/

def digitChar (d : Nat) : Char :=
  match d with
  | 0 => '0' | 1 => '1' | 2 => '2' | 3 => '3' | 4 => '4'
  | 5 => '5' | 6 => '6' | 7 => '7' | 8 => '8' | _ => '9'

/-- Base-10 rendering of a natural number, most significant digit first. -/
def natToDigits (n : Nat) : List Char :=
  if _h : n < 10 then [digitChar n]
  else natToDigits (n / 10) ++ [digitChar (n % 10)]
termination_by n
decreasing_by exact Nat.div_lt_self (by omega) (by omega)

def natToString (n : Nat) : String := String.mk (natToDigits n)

def digitVal (c : Char) : Nat := c.toNat - 48

def digitsVal (cs : List Char) : Nat := cs.foldl (fun a c => a * 10 + digitVal c) 0

/-- Split a character list into its leading run of decimal digits and the rest. -/
def spanDigits : List Char → List Char × List Char
  | [] => ([], [])
  | c :: cs =>
    if c.isDigit then
      let p := spanDigits cs
      (c :: p.1, p.2)
    else ([], c :: cs)

def skipWs : List Char → List Char
  | [] => []
  | c :: cs => if c = ' ' then skipWs cs else c :: cs

/-- Consume a concrete expected character list, returning the remainder. -/
def pfxOf : List Char → List Char → Option (List Char)
  | [], cs => some cs
  | _ :: _, [] => none
  | a :: as, c :: cs => if a = c then pfxOf as cs else none

/-- First table entry whose key is a leading segment of the input wins. -/
def matchTable {α : Type} : List (List Char × α) → List Char → Option (α × List Char)
  | [], _ => none
  | (sp, v) :: tbl, cs =>
    match pfxOf sp cs with
    | some rest => some (v, rest)
    | none => matchTable tbl cs

/-! ## Number tokens: digit runs, plus the spelled magnitudes "a"/"an" (value 1) -/

def parseDigitsTok (cs : List Char) : Option (Nat × List Char) :=
  match cs with
  | [] => none
  | c :: cs' =>
    if c.isDigit then
      let p := spanDigits (c :: cs')
      some (digitsVal p.1, p.2)
    else none

def parseNumber (cs : List Char) : Option (Nat × List Char) :=
  match parseDigitsTok cs with
  | some r => some r
  | none =>
    match cs with
    | [] => none
    | c :: c2 :: rest =>
      if c = 'a' then
        if c2 = 'n' then some (1, rest) else some (1, c2 :: rest)
      else none
    | c :: rest => if c = 'a' then some (1, rest) else none

/-! ## Unit table (spec §3).  Entries are ordered by decreasing spelling
length so that the first-match rule of `matchTable` picks the longest
matching spelling. -/

def unitTable : List (List Char × Nat) :=
  [(['s','e','c','o','n','d','s'], msSecond),
   (['m','i','n','u','t','e','s'], msMinute),
   (['s','e','c','o','n','d'], msSecond),
   (['m','i','n','u','t','e'], msMinute),
   (['m','o','n','t','h','s'], msMonth),
   (['h','o','u','r','s'], msHour),
   (['m','o','n','t','h'], msMonth),
   (['w','e','e','k','s'], msWeek),
   (['y','e','a','r','s'], msYear),
   (['s','e','c','s'], msSecond),
   (['m','i','n','s'], msMinute),
   (['h','o','u','r'], msHour),
   (['w','e','e','k'], msWeek),
   (['y','e','a','r'], msYear),
   (['d','a','y','s'], msDay),
   (['s','e','c'], msSecond),
   (['m','i','n'], msMinute),
   (['d','a','y'], msDay),
   (['个','小','时'], msHour),
   (['个','星','期'], msWeek),
   (['秒','钟'], msSecond),
   (['分','钟'], msMinute),
   (['分','鐘'], msMinute),
   (['小','时'], msHour),
   (['星','期'], msWeek),
   (['个','月'], msMonth),
   (['秒'], msSecond),
   (['分'], msMinute),
   (['天'], msDay),
   (['周'], msWeek),
   (['月'], msMonth),
   (['年'], msYear),
   (['s'], msSecond),
   (['m'], msMinute),
   (['h'], msHour),
   (['d'], msDay),
   (['w'], msWeek)]

/-! ## Duration pairs -/

/-- One `<number><unit>` pair: optional whitespace, a number, optional
whitespace, then a unit spelling; yields `number * unit-ms`. -/
def parsePair (cs : List Char) : Option (Nat × List Char) :=
  match parseNumber (skipWs cs) with
  | none => none
  | some (n, r1) =>
    match matchTable unitTable (skipWs r1) with
    | none => none
    | some (ms, r2) => some (n * ms, r2)

theorem spanDigits_snd_length : ∀ cs : List Char, (spanDigits cs).2.length ≤ cs.length := by
  intro cs
  induction cs with
  | nil => simp [spanDigits]
  | cons c cs ih =>
    simp only [spanDigits]
    split
    · simpa using Nat.le_succ_of_le ih
    · simp

theorem spanDigits_cons_digit {c : Char} (cs : List Char) (h : c.isDigit = true) :
    spanDigits (c :: cs) = (c :: (spanDigits cs).1, (spanDigits cs).2) := by
  simp [spanDigits, h]

theorem skipWs_length : ∀ cs : List Char, (skipWs cs).length ≤ cs.length := by
  intro cs
  induction cs with
  | nil => simp [skipWs]
  | cons c cs ih =>
    simp only [skipWs]
    split
    · exact Nat.le_succ_of_le ih
    · simp

theorem pfxOf_length {sp cs rest : List Char} (h : pfxOf sp cs = some rest) :
    rest.length + sp.length = cs.length := by
  induction sp generalizing cs with
  | nil =>
    simp only [pfxOf, Option.some.injEq] at h
    simp [h]
  | cons a as ih =>
    cases cs with
    | nil => simp [pfxOf] at h
    | cons c cs' =>
      simp only [pfxOf] at h
      split at h
      · have := ih h
        simp only [List.length_cons]
        omega
      · exact absurd h (by simp)

theorem matchTable_length {α : Type} {tbl : List (List Char × α)} {cs : List Char}
    {v : α} {rest : List Char}
    (hne : ∀ e ∈ tbl, e.1 ≠ []) (h : matchTable tbl cs = some (v, rest)) :
    rest.length < cs.length := by
  induction tbl with
  | nil => simp [matchTable] at h
  | cons e tbl ih =>
    obtain ⟨sp, w⟩ := e
    simp only [matchTable] at h
    cases hp : pfxOf sp cs with
    | some r =>
      rw [hp] at h
      have hlen := pfxOf_length hp
      have hsp : sp ≠ [] := hne (sp, w) (by simp)
      have hpos : 0 < sp.length := List.length_pos.mpr hsp
      simp only [Option.some.injEq, Prod.mk.injEq] at h
      obtain ⟨h1, h2⟩ := h
      subst h2
      omega
    | none =>
      rw [hp] at h
      exact ih (fun e he => hne e (by simp [he])) h

theorem unitTable_keys_ne_nil : ∀ e ∈ unitTable, e.1 ≠ [] := by decide

theorem parseDigitsTok_length {cs : List Char} {n : Nat} {r : List Char}
    (h : parseDigitsTok cs = some (n, r)) : r.length < cs.length := by
  cases cs with
  | nil => simp [parseDigitsTok] at h
  | cons c cs' =>
    simp only [parseDigitsTok] at h
    split at h
    case isTrue hdig =>
      rw [spanDigits_cons_digit cs' hdig] at h
      simp only [Option.some.injEq, Prod.mk.injEq] at h
      obtain ⟨h1, h2⟩ := h
      subst h2
      have := spanDigits_snd_length cs'
      simp only [List.length_cons]
      omega
    case isFalse => simp at h

theorem parseNumber_length {cs : List Char} {n : Nat} {r : List Char}
    (h : parseNumber cs = some (n, r)) : r.length < cs.length := by
  simp only [parseNumber] at h
  split at h
  · rename_i p heq
    rw [h] at heq
    exact parseDigitsTok_length heq
  · split at h
    · exact absurd h (by simp)
    · split at h
      · split at h
        · simp only [Option.some.injEq, Prod.mk.injEq] at h
          obtain ⟨h1, h2⟩ := h
          subst h2
          simp only [List.length_cons]
          omega
        · simp only [Option.some.injEq, Prod.mk.injEq] at h
          obtain ⟨h1, h2⟩ := h
          subst h2
          simp only [List.length_cons]
          omega
      · exact absurd h (by simp)
    · split at h
      · simp only [Option.some.injEq, Prod.mk.injEq] at h
        obtain ⟨h1, h2⟩ := h
        subst h2
        simp only [List.length_cons]
        omega
      · exact absurd h (by simp)

theorem parsePair_length {cs : List Char} {v : Nat} {r : List Char}
    (h : parsePair cs = some (v, r)) : r.length < cs.length := by
  simp only [parsePair] at h
  split at h
  · exact absurd h (by simp)
  · rename_i n r1 hn
    split at h
    · exact absurd h (by simp)
    · rename_i ms r2 hm
      simp only [Option.some.injEq, Prod.mk.injEq] at h
      obtain ⟨h1, h2⟩ := h
      subst h2
      have e1 := matchTable_length unitTable_keys_ne_nil hm
      have e2 := skipWs_length r1
      have e3 := parseNumber_length hn
      have e4 := skipWs_length cs
      omega

/-! ## Compound durations: zero or more further pairs, summed (spec §4.1 rule 1) -/

def parsePairs (cs : List Char) : Nat × List Char :=
  match h : parsePair cs with
  | some (v, r) =>
    have : r.length < cs.length := parsePair_length h
    let p := parsePairs r
    (v + p.1, p.2)
  | none => (0, cs)
termination_by cs.length

theorem parsePairs_none {cs : List Char} (h : parsePair cs = none) :
    parsePairs cs = (0, cs) := by
  rw [parsePairs]
  split
  · rename_i v r heq
    rw [h] at heq
    exact absurd heq (by simp)
  · rfl

theorem parsePairs_some {cs : List Char} {v : Nat} {r : List Char}
    (h : parsePair cs = some (v, r)) :
    parsePairs cs = (v + (parsePairs r).1, (parsePairs r).2) := by
  rw [parsePairs]
  split
  · rename_i v' r' heq
    rw [h] at heq
    simp only [Option.some.injEq, Prod.mk.injEq] at heq
    obtain ⟨h1, h2⟩ := heq
    subst h1
    subst h2
    rfl
  · rename_i heq
    rw [h] at heq
    exact absurd heq (by simp)

/-! ## The relative-date abstract syntax (spec §3 data model) -/

inductive RelAST where
  | duration (past : Bool) (ms : Nat)
  | anchor (dayOff : Int) (clock : Option Nat)
  | wday (d : Nat) (clock : Option Nat)
deriving DecidableEq

/-- Rule 1 body after an optional leading FUTURE marker has been removed:
one or more pairs, then (for the suffix form) a direction marker. -/
def durTail (cs : List Char) : Option RelAST :=
  match parsePair cs with
  | none => none
  | some (v, r) =>
    let p := parsePairs r
    let rest := skipWs p.2
    if rest = ['前'] ∨ rest = ['a','g','o'] then some (.duration true (v + p.1))
    else if rest = ['后'] ∨ rest = ['内'] then some (.duration false (v + p.1))
    else none

/-- Pairs after a leading "in "/"within " FUTURE marker; input must be
exhausted after the pairs. -/
def durAfterMark (cs : List Char) : Option RelAST :=
  match parsePair cs with
  | none => none
  | some (v, r) =>
    let p := parsePairs r
    if skipWs p.2 = [] then some (.duration false (v + p.1)) else none

def parseDuration (cs : List Char) : Option RelAST :=
  match pfxOf ['i','n',' '] cs with
  | some r => durAfterMark r
  | none =>
    match pfxOf ['w','i','t','h','i','n',' '] cs with
    | some r => durAfterMark r
    | none => durTail cs

/-! ## Calendar anchors and weekday names (spec §4.1 rule 2) -/

def anchorTable : List (List Char × Int) :=
  [(['y','e','s','t','e','r','d','a','y'], -1),
   (['t','o','m','o','r','r','o','w'], 1),
   (['t','o','d','a','y'], 0),
   (['t','d','a'], 0),
   (['今','天'], 0),
   (['昨','天'], -1),
   (['昨','日'], -1),
   (['前','天'], -2),
   (['明','天'], 1)]

/-- Weekday names.  Monday..Saturday carry 1..6; Sunday carries 7, matching
the repository's own test helper `weekday` (card.tsx line 292), which is
called with 7 for `星期天`. -/
def weekdayTable : List (List Char × Nat) :=
  [(['w','e','d','n','e','s','d','a','y'], 3),
   (['t','h','u','r','s','d','a','y'], 4),
   (['s','a','t','u','r','d','a','y'], 6),
   (['t','u','e','s','d','a','y'], 2),
   (['m','o','n','d','a','y'], 1),
   (['f','r','i','d','a','y'], 5),
   (['s','u','n','d','a','y'], 7),
   (['星','期','一'], 1),
   (['星','期','二'], 2),
   (['星','期','三'], 3),
   (['星','期','四'], 4),
   (['星','期','五'], 5),
   (['星','期','六'], 6),
   (['星','期','天'], 7),
   (['星','期','日'], 7),
   (['周','一'], 1),
   (['周','二'], 2),
   (['周','三'], 3),
   (['周','四'], 4),
   (['周','五'], 5),
   (['周','六'], 6),
   (['周','天'], 7),
   (['周','日'], 7)]

/-! ## Clock-time suffixes -/

def mkClockMs (h m s : Nat) : Nat := ((h * 60 + m) * 60 + s) * 1000

/-- Meridiem handling and end-of-input check for the colon formats
("pm" adds 12 to the hour except when the hour is 12; spec §4.1). -/
def finishClock (h m s : Nat) (r : List Char) : Option Nat :=
  let r2 := skipWs r
  if r2 = [] then some (mkClockMs h m s)
  else if r2 = ['p','m'] then some (mkClockMs (if h = 12 then 12 else h + 12) m s)
  else if r2 = ['a','m'] then some (mkClockMs h m s)
  else none

/-- Chinese minute/second tail: `m分[s秒]`, input exhausted afterwards. -/
def chineseMin (h : Nat) (r2 : List Char) : Option Nat :=
  match parseDigitsTok r2 with
  | none => none
  | some (m, r3) =>
    match r3 with
    | '分' :: r4 =>
      if r4 = [] then some (mkClockMs h m 0)
      else
        match parseDigitsTok r4 with
        | none => none
        | some (s, r5) => if r5 = ['秒'] then some (mkClockMs h m s) else none
    | _ => none

def parseClockTime (cs : List Char) : Option Nat :=
  match parseDigitsTok cs with
  | none => none
  | some (h, r1) =>
    match r1 with
    | ':' :: r2 =>
      (match parseDigitsTok r2 with
       | none => none
       | some (m, r3) =>
         match r3 with
         | ':' :: r4 =>
           (match parseDigitsTok r4 with
            | none => none
            | some (s, r5) => finishClock h m s r5)
         | _ => finishClock h m 0 r3)
    | '点' :: r2 => chineseMin h r2
    | '时' :: r2 => chineseMin h r2
    | _ => none

def skipSep : List Char → List Char
  | [] => []
  | c :: cs => if c = ' ' ∨ c = ',' then skipSep cs else c :: cs

/-- `some none` = anchor with no clock suffix; `some (some ms)` = clock
offset of `ms` milliseconds into the anchor day; `none` = no grammar match. -/
def parseClockOpt (cs : List Char) : Option (Option Nat) :=
  let r := skipSep cs
  if r = [] then some none
  else
    match parseClockTime r with
    | some ms => some (some ms)
    | none => none

def parseAnchorRule (cs : List Char) : Option RelAST :=
  match matchTable anchorTable cs with
  | some (off, rest) =>
    (match parseClockOpt rest with
     | some c => some (.anchor off c)
     | none => none)
  | none =>
    match matchTable weekdayTable cs with
    | some (d, rest) =>
      (match parseClockOpt rest with
       | some c => some (.wday d c)
       | none => none)
    | none => none

/-! ## Evaluation against the reference instant `now` (epoch milliseconds) -/

def startOfDay (t : Int) : Int := t - t % 86400000

def weekdayOf (t : Int) : Int := (t / 86400000 + 4) % 7

/-- The day offset the repository's test helper `weekday` (card.tsx:292)
computes: `d - (getDay() > d ? getDay() : getDay() + 7)` with `w = getDay()`. -/
def weekdayOffset (w : Int) (d : Nat) : Int :=
  (d : Int) - (if (d : Int) < w then w else w + 7)

def evalAST (a : RelAST) (now : Int) : Int :=
  match a with
  | .duration true ms => now - (ms : Int)
  | .duration false ms => now + (ms : Int)
  | .anchor off c => startOfDay now + off * 86400000 + ((c.getD 0 : Nat) : Int)
  | .wday d c =>
    startOfDay now + weekdayOffset (weekdayOf now) d * 86400000 + ((c.getD 0 : Nat) : Int)

def toLowerList (cs : List Char) : List Char := cs.map Char.toLower

/-- Modelled from the spec: the grammar of `parseRelativeDate` (§4.1), whose
implementation is not among the given sources (only its tests are).
Rule 1 (compound relative duration) is tried first, then rule 2 (calendar
anchor / weekday with optional clock suffix).  Matching is case-insensitive. -/
def parseToAST (s : String) : Option RelAST :=
  let cs := toLowerList s.data
  match parseDuration cs with
  | some a => some a
  | none => parseAnchorRule cs

inductive ParseOut where
  | instant (t : Int)
  | text (s : String)
deriving DecidableEq

/-- Modelled from the spec: `parse(input, now) -> Instant | text` (§4.1).
On no grammar match the original input string is returned verbatim. -/
def parseRelativeDate (s : String) (now : Int) : ParseOut :=
  match parseToAST s with
  | some a => ParseOut.instant (evalAST a now)
  | none => ParseOut.text s

/-! ## Round-trip facts about digit rendering -/

theorem digitChar_facts (d : Nat) (h : d < 10) :
    (digitChar d).isDigit = true ∧ (digitChar d).toLower = digitChar d ∧
      digitVal (digitChar d) = d ∧ digitChar d ≠ ' ' := by
  interval_cases d <;> exact ⟨by decide, by decide, by decide, by decide⟩

theorem natToDigits_mem (n : Nat) : ∀ c ∈ natToDigits n, ∃ d, d < 10 ∧ c = digitChar d := by
  induction n using Nat.strong_induction_on with
  | _ n ih =>
    rw [natToDigits]
    split
    · rename_i h
      intro c hc
      simp only [List.mem_singleton] at hc
      exact ⟨n, h, hc⟩
    · rename_i h
      intro c hc
      rcases List.mem_append.mp hc with h1 | h2
      · exact ih (n / 10) (Nat.div_lt_self (by omega) (by omega)) c h1
      · simp only [List.mem_singleton] at h2
        exact ⟨n % 10, Nat.mod_lt _ (by omega), h2⟩

theorem natToDigits_all_digit (n : Nat) : ∀ c ∈ natToDigits n, c.isDigit = true := by
  intro c hc
  obtain ⟨d, hd, rfl⟩ := natToDigits_mem n c hc
  exact (digitChar_facts d hd).1

theorem natToDigits_ne_nil (n : Nat) : natToDigits n ≠ [] := by
  rw [natToDigits]
  split
  · simp
  · simp

theorem natToDigits_cons (n : Nat) :
    ∃ c t, natToDigits n = c :: t ∧ c.isDigit = true ∧ c ≠ ' ' := by
  cases h : natToDigits n with
  | nil => exact absurd h (natToDigits_ne_nil n)
  | cons c t =>
    have hc : c ∈ natToDigits n := by rw [h]; simp
    obtain ⟨d, hd, rfl⟩ := natToDigits_mem n c hc
    exact ⟨digitChar d, t, rfl, (digitChar_facts d hd).1, (digitChar_facts d hd).2.2.2⟩

theorem digitsVal_append_single (ds : List Char) (c : Char) :
    digitsVal (ds ++ [c]) = digitsVal ds * 10 + digitVal c := by
  simp [digitsVal, List.foldl_append]

theorem digitsVal_natToDigits (n : Nat) : digitsVal (natToDigits n) = n := by
  induction n using Nat.strong_induction_on with
  | _ n ih =>
    rw [natToDigits]
    split
    · rename_i h
      simp only [digitsVal, List.foldl_cons, List.foldl_nil]
      have := (digitChar_facts n h).2.2.1
      omega
    · rename_i h
      rw [digitsVal_append_single, ih (n / 10) (Nat.div_lt_self (by omega) (by omega))]
      have := (digitChar_facts (n % 10) (Nat.mod_lt _ (by omega))).2.2.1
      omega

/-! ## Head-shape side conditions -/

def noLeadDigit (cs : List Char) : Prop := ∀ c rest, cs = c :: rest → c.isDigit = false

theorem spanDigits_all_append {ds rest : List Char} (hds : ∀ c ∈ ds, c.isDigit = true)
    (hr : noLeadDigit rest) : spanDigits (ds ++ rest) = (ds, rest) := by
  induction ds with
  | nil =>
    simp only [List.nil_append]
    cases rest with
    | nil => rfl
    | cons c rs =>
      have := hr c rs rfl
      simp [spanDigits, this]
  | cons c ds ih =>
    have hc := hds c (by simp)
    simp only [List.cons_append]
    rw [spanDigits_cons_digit _ hc, ih (fun x hx => hds x (by simp [hx]))]

theorem parseDigitsTok_cons_digit {c : Char} (cs : List Char) (h : c.isDigit = true) :
    parseDigitsTok (c :: cs) =
      some (digitsVal (spanDigits (c :: cs)).1, (spanDigits (c :: cs)).2) := by
  simp [parseDigitsTok, h]

theorem parseDigitsTok_render (n : Nat) {rest : List Char} (hr : noLeadDigit rest) :
    parseDigitsTok (natToDigits n ++ rest) = some (n, rest) := by
  obtain ⟨c, t, hct, hcd, _⟩ := natToDigits_cons n
  have hspan : spanDigits (natToDigits n ++ rest) = (natToDigits n, rest) :=
    spanDigits_all_append (natToDigits_all_digit n) hr
  rw [hct, List.cons_append, parseDigitsTok_cons_digit _ hcd, ← List.cons_append, ← hct,
    hspan]
  simp [digitsVal_natToDigits]

theorem parseNumber_render (n : Nat) {rest : List Char} (hr : noLeadDigit rest) :
    parseNumber (natToDigits n ++ rest) = some (n, rest) := by
  simp [parseNumber, parseDigitsTok_render n hr]

theorem skipWs_cons_ne {c : Char} (cs : List Char) (h : c ≠ ' ') :
    skipWs (c :: cs) = c :: cs := by
  simp [skipWs, h]

theorem ne_of_digit {c d : Char} (hc : c.isDigit = true) (hd : d.isDigit = false) :
    d ≠ c := by
  intro h
  rw [h, hc] at hd
  simp at hd

theorem digit_ne_space {c : Char} (hc : c.isDigit = true) : c ≠ ' ' := by
  intro h
  rw [h] at hc
  exact absurd hc (by decide)

theorem pfxOf_head_ne {a c : Char} (as cs' : List Char) (h : a ≠ c) :
    pfxOf (a :: as) (c :: cs') = none := by
  simp [pfxOf, h]

/-! ## Ground facts about the tables, checked by evaluation -/

theorem unitTable_heads : ∀ e ∈ unitTable,
    e.1 ≠ [] ∧ (e.1.headD 'x').isDigit = false ∧ e.1.headD 'x' ≠ ' ' := by decide

theorem unitTable_lower : ∀ e ∈ unitTable, e.1.map Char.toLower = e.1 := by decide

theorem anchorTable_heads : ∀ e ∈ anchorTable,
    e.1 ≠ [] ∧ (e.1.headD 'x').isDigit = false := by decide

theorem weekdayTable_heads : ∀ e ∈ weekdayTable,
    e.1 ≠ [] ∧ (e.1.headD 'x').isDigit = false := by decide

theorem matchTable_digit_none {α : Type} {tbl : List (List Char × α)}
    (htbl : ∀ e ∈ tbl, e.1 ≠ [] ∧ (e.1.headD 'x').isDigit = false)
    {c : Char} (hc : c.isDigit = true) (cs : List Char) :
    matchTable tbl (c :: cs) = none := by
  induction tbl with
  | nil => rfl
  | cons e tbl ih =>
    obtain ⟨sp, v⟩ := e
    obtain ⟨h1, h2⟩ := htbl (sp, v) (by simp)
    cases sp with
    | nil => exact absurd rfl h1
    | cons a as =>
      simp only [List.headD_cons] at h2
      have hpf : pfxOf (a :: as) (c :: cs) = none := pfxOf_head_ne as cs (ne_of_digit hc h2)
      simp only [matchTable, hpf]
      exact ih (fun e he => htbl e (by simp [he]))

/-! ## Unit matching with an abstract tail of a safe shape -/

def okTail (X : List Char) : Prop :=
  (∃ Y, X = ' ' :: Y) ∨ X = [] ∨ X = ['a','g','o'] ∨ X = ['前'] ∨ X = ['后'] ∨ X = ['内']

theorem matchUnit_boundary {u : List Char} {ms : Nat} (hmem : (u, ms) ∈ unitTable)
    {X : List Char} (hX : okTail X) :
    matchTable unitTable (u ++ X) = some (ms, X) := by
  fin_cases hmem <;>
    rcases hX with ⟨Y, rfl⟩ | rfl | rfl | rfl | rfl | rfl <;>
      simp [matchTable, pfxOf]

theorem parsePair_render {u : List Char} {ms : Nat} (hmem : (u, ms) ∈ unitTable)
    (n : Nat) {X : List Char} (hX : okTail X) :
    parsePair (natToDigits n ++ (u ++ X)) = some (n * ms, X) := by
  obtain ⟨hne, hhd, hhw⟩ := unitTable_heads (u, ms) hmem
  obtain ⟨c, t, hct⟩ : ∃ c t, u = c :: t := by
    cases u with
    | nil => exact absurd rfl hne
    | cons c t => exact ⟨c, t, rfl⟩
  subst hct
  simp only [List.headD_cons] at hhd hhw
  obtain ⟨d0, t0, h0, h0d, h0w⟩ := natToDigits_cons n
  have e1 : skipWs (natToDigits n ++ (c :: t ++ X)) = natToDigits n ++ (c :: t ++ X) := by
    rw [h0, List.cons_append]
    exact skipWs_cons_ne _ h0w
  have e2 : parseNumber (natToDigits n ++ (c :: t ++ X)) = some (n, c :: t ++ X) :=
    parseNumber_render n (fun x rest hx => by
      simp only [List.cons_append, List.cons.injEq] at hx
      rw [← hx.1]; exact hhd)
  have e3 : skipWs (c :: t ++ X) = c :: t ++ X := by
    rw [List.cons_append]
    exact skipWs_cons_ne _ hhw
  have e4 := matchUnit_boundary hmem hX
  simp only [parsePair, e1, e2, e3, e4]

/-! ## Lower-casing stability -/

theorem lower_natToDigits (n : Nat) : (natToDigits n).map Char.toLower = natToDigits n := by
  have h : ∀ c ∈ natToDigits n, Char.toLower c = c := by
    intro c hc
    obtain ⟨d, hd, rfl⟩ := natToDigits_mem n c hc
    exact (digitChar_facts d hd).2.1
  rw [List.map_congr_left h]
  simp

/-! ## Rendering compound duration phrases -/

def renderPair (n : Nat) (u : List Char) : List Char := natToDigits n ++ u

def renderRest : List (Nat × List Char × Nat) → List Char
  | [] => []
  | e :: rest => ' ' :: (renderPair e.1 e.2.1 ++ renderRest rest)

def renderCompound : List (Nat × List Char × Nat) → List Char
  | [] => []
  | e :: rest => renderPair e.1 e.2.1 ++ renderRest rest

def sumMs (l : List (Nat × List Char × Nat)) : Nat := (l.map fun e => e.1 * e.2.2).sum

theorem parsePair_cons_space (cs : List Char) : parsePair (' ' :: cs) = parsePair cs := by
  simp [parsePair, skipWs]

theorem okTail_renderRest {l : List (Nat × List Char × Nat)} {tail : List Char}
    (hok : okTail tail) : okTail (renderRest l ++ tail) := by
  cases l with
  | nil => simpa [renderRest] using hok
  | cons e rest =>
    refine Or.inl ⟨renderPair e.1 e.2.1 ++ (renderRest rest ++ tail), ?_⟩
    simp [renderRest]

theorem lower_renderRest (l : List (Nat × List Char × Nat))
    (hmem : ∀ e ∈ l, (e.2.1, e.2.2) ∈ unitTable) :
    (renderRest l).map Char.toLower = renderRest l := by
  induction l with
  | nil => rfl
  | cons e l ih =>
    obtain ⟨n, u, ms⟩ := e
    have hu : u.map Char.toLower = u := unitTable_lower (u, ms) (hmem (n, u, ms) (by simp))
    simp only [renderRest, renderPair, List.map_cons, List.map_append]
    rw [lower_natToDigits, hu, ih (fun e he => hmem e (by simp [he]))]
    rfl

theorem lower_renderCompound (l : List (Nat × List Char × Nat))
    (hmem : ∀ e ∈ l, (e.2.1, e.2.2) ∈ unitTable) :
    (renderCompound l).map Char.toLower = renderCompound l := by
  cases l with
  | nil => rfl
  | cons e l =>
    obtain ⟨n, u, ms⟩ := e
    have hu : u.map Char.toLower = u := unitTable_lower (u, ms) (hmem (n, u, ms) (by simp))
    simp only [renderCompound, renderPair, List.map_append]
    rw [lower_natToDigits, hu, lower_renderRest l (fun e he => hmem e (by simp [he]))]

theorem parsePairs_renderRest {tail : List Char} (htail : parsePair tail = none)
    (hok : okTail tail) :
    ∀ l : List (Nat × List Char × Nat), (∀ e ∈ l, (e.2.1, e.2.2) ∈ unitTable) →
      parsePairs (renderRest l ++ tail) = (sumMs l, tail) := by
  intro l
  induction l with
  | nil =>
    intro _
    simpa [renderRest, sumMs] using parsePairs_none htail
  | cons e l ih =>
    intro hmem
    obtain ⟨n, u, ms⟩ := e
    have hmem0 : (u, ms) ∈ unitTable := hmem (n, u, ms) (by simp)
    have hX : okTail (renderRest l ++ tail) := okTail_renderRest hok
    have hp : parsePair (renderRest ((n, u, ms) :: l) ++ tail) =
        some (n * ms, renderRest l ++ tail) := by
      simp only [renderRest, renderPair, List.cons_append, List.append_assoc]
      rw [parsePair_cons_space]
      exact parsePair_render hmem0 n hX
    rw [parsePairs_some hp, ih (fun e he => hmem e (by simp [he]))]
    simp [sumMs]

/-! ## Rule-dispatch lemmas -/

theorem parseDuration_cons_digit {c : Char} (cs : List Char) (h : c.isDigit = true) :
    parseDuration (c :: cs) = durTail (c :: cs) := by
  have h1 : pfxOf ['i','n',' '] (c :: cs) = none :=
    pfxOf_head_ne _ _ (ne_of_digit h (by decide))
  have h2 : pfxOf ['w','i','t','h','i','n',' '] (c :: cs) = none :=
    pfxOf_head_ne _ _ (ne_of_digit h (by decide))
  simp [parseDuration, h1, h2]

theorem parseRD_of_ast {s : String} {a : RelAST} (now : Int) (h : parseToAST s = some a) :
    parseRelativeDate s now = ParseOut.instant (evalAST a now) := by
  simp [parseRelativeDate, h]

theorem parseRD_of_none {s : String} (now : Int) (h : parseToAST s = none) :
    parseRelativeDate s now = ParseOut.text s := by
  simp [parseRelativeDate, h]

/-- A single `<number><unit>` phrase followed by tail `M` (a suffix marker,
or nothing): what the whole grammar makes of it. -/
theorem parseToAST_single {u : List Char} {ms : Nat} (hmem : (u, ms) ∈ unitTable)
    (n : Nat) {M : List Char} (hok : okTail M) (hM : parsePair M = none)
    (hlowM : M.map Char.toLower = M) :
    parseToAST (String.mk (natToDigits n ++ (u ++ M))) =
      (if skipWs M = ['前'] ∨ skipWs M = ['a','g','o'] then
        some (RelAST.duration true (n * ms))
       else if skipWs M = ['后'] ∨ skipWs M = ['内'] then
        some (RelAST.duration false (n * ms))
       else none) := by
  have hu : u.map Char.toLower = u := unitTable_lower (u, ms) hmem
  obtain ⟨d0, t0, h0, h0d, h0w⟩ := natToDigits_cons n
  have hlow : toLowerList (natToDigits n ++ (u ++ M)) = natToDigits n ++ (u ++ M) := by
    simp only [toLowerList, List.map_append]
    rw [lower_natToDigits, hu, hlowM]
  have hdur : parseDuration (natToDigits n ++ (u ++ M)) =
      durTail (natToDigits n ++ (u ++ M)) := by
    rw [h0, List.cons_append, parseDuration_cons_digit _ h0d]
  have hpair := parsePair_render hmem n hok
  have htail : durTail (natToDigits n ++ (u ++ M)) =
      (if skipWs M = ['前'] ∨ skipWs M = ['a','g','o'] then
        some (RelAST.duration true (n * ms))
       else if skipWs M = ['后'] ∨ skipWs M = ['内'] then
        some (RelAST.duration false (n * ms))
       else none) := by
    simp only [durTail, hpair, parsePairs_none hM, Nat.add_zero]
  by_cases hM1 : skipWs M = ['前'] ∨ skipWs M = ['a','g','o']
  · simp only [parseToAST, hlow, hdur, htail, hM1, if_true]
  · by_cases hM2 : skipWs M = ['后'] ∨ skipWs M = ['内']
    · simp only [parseToAST, hlow, hdur, htail]
      simp [hM1, hM2]
    · have hanch : parseAnchorRule (natToDigits n ++ (u ++ M)) = none := by
        rw [h0, List.cons_append]
        simp [parseAnchorRule, matchTable_digit_none anchorTable_heads h0d,
          matchTable_digit_none weekdayTable_heads h0d]
      simp only [parseToAST, hlow, hdur, htail]
      simp [hM1, hM2, hanch]

theorem parseDuration_render (n : Nat) (rest : List Char) :
    parseDuration (natToDigits n ++ rest) = durTail (natToDigits n ++ rest) := by
  obtain ⟨d0, t0, h0, h0d, _⟩ := natToDigits_cons n
  rw [h0, List.cons_append, parseDuration_cons_digit _ h0d]

theorem parseAnchorRule_render (n : Nat) (rest : List Char) :
    parseAnchorRule (natToDigits n ++ rest) = none := by
  obtain ⟨d0, t0, h0, h0d, _⟩ := natToDigits_cons n
  rw [h0, List.cons_append]
  simp [parseAnchorRule, matchTable_digit_none anchorTable_heads h0d,
    matchTable_digit_none weekdayTable_heads h0d]

/-- The leading-marker FUTURE form "in <n><unit>". -/
theorem parseToAST_in {u : List Char} {ms : Nat} (hmem : (u, ms) ∈ unitTable) (n : Nat) :
    parseToAST (String.mk ('i' :: 'n' :: ' ' :: (natToDigits n ++ u))) =
      some (RelAST.duration false (n * ms)) := by
  have hu : u.map Char.toLower = u := unitTable_lower (u, ms) hmem
  have hlow : toLowerList ('i' :: 'n' :: ' ' :: (natToDigits n ++ u)) =
      'i' :: 'n' :: ' ' :: (natToDigits n ++ u) := by
    simp only [toLowerList, List.map_cons, List.map_append]
    rw [lower_natToDigits, hu, show Char.toLower 'i' = 'i' from by decide,
      show Char.toLower 'n' = 'n' from by decide, show Char.toLower ' ' = ' ' from by decide]
  have hpair : parsePair (natToDigits n ++ u) = some (n * ms, []) := by
    have := parsePair_render hmem n (X := []) (Or.inr (Or.inl rfl))
    simpa using this
  have hafter : durAfterMark (natToDigits n ++ u) = some (RelAST.duration false (n * ms)) := by
    have hz : parsePairs ([] : List Char) = (0, []) := parsePairs_none (by decide)
    simp [durAfterMark, hpair, hz, skipWs]
  have hin : pfxOf ['i','n',' '] ('i' :: 'n' :: ' ' :: (natToDigits n ++ u)) =
      some (natToDigits n ++ u) := by
    simp [pfxOf]
  simp only [parseToAST, hlow, parseDuration, hin, hafter]

/-- "a <unit> ago": the spelled magnitude "a" counts as 1. -/
theorem parseToAST_a_ago {u : List Char} {ms : Nat} (hmem : (u, ms) ∈ unitTable) :
    parseToAST (String.mk ('a' :: ' ' :: (u ++ [' ','a','g','o']))) =
      some (RelAST.duration true ms) := by
  have hu : u.map Char.toLower = u := unitTable_lower (u, ms) hmem
  obtain ⟨hne, hhd, hhw⟩ := unitTable_heads (u, ms) hmem
  obtain ⟨c, t, hct⟩ : ∃ c t, u = c :: t := by
    cases u with
    | nil => exact absurd rfl hne
    | cons c t => exact ⟨c, t, rfl⟩
  subst hct
  simp only [List.headD_cons] at hhd hhw
  have hu2 : c.toLower = c ∧ t.map Char.toLower = t := by
    have h := hu
    simp only [List.map_cons, List.cons.injEq] at h
    exact h
  obtain ⟨huc, hut⟩ := hu2
  have hlow : toLowerList ('a' :: ' ' :: (c :: t ++ [' ','a','g','o'])) =
      'a' :: ' ' :: (c :: t ++ [' ','a','g','o']) := by
    simp only [toLowerList, List.map_cons, List.map_append, List.map_nil, huc, hut]
    rw [show Char.toLower 'a' = 'a' from by decide, show Char.toLower ' ' = ' ' from by decide,
      show Char.toLower 'g' = 'g' from by decide, show Char.toLower 'o' = 'o' from by decide]
  have hnum : parseNumber ('a' :: ' ' :: (c :: t ++ [' ','a','g','o'])) =
      some (1, ' ' :: (c :: t ++ [' ','a','g','o'])) := by
    simp [parseNumber, parseDigitsTok]
  have hmatch : matchTable unitTable (c :: t ++ [' ','a','g','o']) =
      some (ms, [' ','a','g','o']) := matchUnit_boundary hmem (Or.inl ⟨['a','g','o'], rfl⟩)
  have hpair : parsePair ('a' :: ' ' :: (c :: t ++ [' ','a','g','o'])) =
      some (1 * ms, [' ','a','g','o']) := by
    simp only [parsePair, skipWs_cons_ne _ (by decide : ('a' : Char) ≠ ' '), hnum]
    rw [show skipWs (' ' :: (c :: t ++ [' ','a','g','o'])) = c :: t ++ [' ','a','g','o'] from by
      simp only [skipWs, if_pos rfl, List.cons_append]
      exact skipWs_cons_ne _ hhw]
    rw [hmatch]
  have htl : durTail ('a' :: ' ' :: (c :: t ++ [' ','a','g','o'])) =
      some (RelAST.duration true ms) := by
    have hz : parsePairs [' ','a','g','o'] = (0, [' ','a','g','o']) :=
      parsePairs_none (by decide)
    have hsk : skipWs [' ','a','g','o'] = ['a','g','o'] := by decide
    simp only [durTail, hpair, hz, hsk]
    norm_num
  have h1 : pfxOf ['i','n',' '] ('a' :: ' ' :: (c :: t ++ [' ','a','g','o'])) = none :=
    pfxOf_head_ne _ _ (by decide)
  have h2 : pfxOf ['w','i','t','h','i','n',' ']
      ('a' :: ' ' :: (c :: t ++ [' ','a','g','o'])) = none :=
    pfxOf_head_ne _ _ (by decide)
  simp only [parseToAST, hlow, parseDuration, h1, h2, htl]

/-- "an <unit> ago": the spelled magnitude "an" counts as 1. -/
theorem parseToAST_an_ago {u : List Char} {ms : Nat} (hmem : (u, ms) ∈ unitTable) :
    parseToAST (String.mk ('a' :: 'n' :: ' ' :: (u ++ [' ','a','g','o']))) =
      some (RelAST.duration true ms) := by
  have hu : u.map Char.toLower = u := unitTable_lower (u, ms) hmem
  obtain ⟨hne, hhd, hhw⟩ := unitTable_heads (u, ms) hmem
  obtain ⟨c, t, hct⟩ : ∃ c t, u = c :: t := by
    cases u with
    | nil => exact absurd rfl hne
    | cons c t => exact ⟨c, t, rfl⟩
  subst hct
  simp only [List.headD_cons] at hhd hhw
  have hu2 : c.toLower = c ∧ t.map Char.toLower = t := by
    have h := hu
    simp only [List.map_cons, List.cons.injEq] at h
    exact h
  obtain ⟨huc, hut⟩ := hu2
  have hlow : toLowerList ('a' :: 'n' :: ' ' :: (c :: t ++ [' ','a','g','o'])) =
      'a' :: 'n' :: ' ' :: (c :: t ++ [' ','a','g','o']) := by
    simp only [toLowerList, List.map_cons, List.map_append, List.map_nil, huc, hut]
    rw [show Char.toLower 'a' = 'a' from by decide, show Char.toLower 'n' = 'n' from by decide,
      show Char.toLower ' ' = ' ' from by decide, show Char.toLower 'g' = 'g' from by decide,
      show Char.toLower 'o' = 'o' from by decide]
  have hnum : parseNumber ('a' :: 'n' :: ' ' :: (c :: t ++ [' ','a','g','o'])) =
      some (1, ' ' :: (c :: t ++ [' ','a','g','o'])) := by
    simp [parseNumber, parseDigitsTok]
  have hmatch : matchTable unitTable (c :: t ++ [' ','a','g','o']) =
      some (ms, [' ','a','g','o']) := matchUnit_boundary hmem (Or.inl ⟨['a','g','o'], rfl⟩)
  have hpair : parsePair ('a' :: 'n' :: ' ' :: (c :: t ++ [' ','a','g','o'])) =
      some (1 * ms, [' ','a','g','o']) := by
    simp only [parsePair, skipWs_cons_ne _ (by decide : ('a' : Char) ≠ ' '), hnum]
    rw [show skipWs (' ' :: (c :: t ++ [' ','a','g','o'])) = c :: t ++ [' ','a','g','o'] from by
      simp only [skipWs, if_pos rfl, List.cons_append]
      exact skipWs_cons_ne _ hhw]
    rw [hmatch]
  have htl : durTail ('a' :: 'n' :: ' ' :: (c :: t ++ [' ','a','g','o'])) =
      some (RelAST.duration true ms) := by
    have hz : parsePairs [' ','a','g','o'] = (0, [' ','a','g','o']) :=
      parsePairs_none (by decide)
    have hsk : skipWs [' ','a','g','o'] = ['a','g','o'] := by decide
    simp only [durTail, hpair, hz, hsk]
    norm_num
  have h1 : pfxOf ['i','n',' '] ('a' :: 'n' :: ' ' :: (c :: t ++ [' ','a','g','o'])) = none :=
    pfxOf_head_ne _ _ (by decide)
  have h2 : pfxOf ['w','i','t','h','i','n',' ']
      ('a' :: 'n' :: ' ' :: (c :: t ++ [' ','a','g','o'])) = none :=
    pfxOf_head_ne _ _ (by decide)
  simp only [parseToAST, hlow, parseDuration, h1, h2, htl]

/-- Compound phrases with a PAST suffix marker sum their pairs. -/
theorem parseToAST_compound_past {l : List (Nat × List Char × Nat)} (hl : l ≠ [])
    (hmem : ∀ e ∈ l, (e.2.1, e.2.2) ∈ unitTable) {M : List Char}
    (hmk : M = ['前'] ∨ M = ['a','g','o']) :
    parseToAST (String.mk (renderCompound l ++ M)) =
      some (RelAST.duration true (sumMs l)) := by
  obtain ⟨e, l', rfl⟩ : ∃ e l', l = e :: l' := by
    cases l with
    | nil => exact absurd rfl hl
    | cons e l' => exact ⟨e, l', rfl⟩
  obtain ⟨n, u, ms⟩ := e
  have hmem0 : (u, ms) ∈ unitTable := hmem (n, u, ms) (by simp)
  have hmem' : ∀ e ∈ l', (e.2.1, e.2.2) ∈ unitTable := fun e he => hmem e (by simp [he])
  have hnorm : renderCompound ((n, u, ms) :: l') ++ M =
      natToDigits n ++ (u ++ (renderRest l' ++ M)) := by
    simp [renderCompound, renderPair, List.append_assoc]
  have hokM : okTail M := by
    rcases hmk with rfl | rfl
    · exact Or.inr (Or.inr (Or.inr (Or.inl rfl)))
    · exact Or.inr (Or.inr (Or.inl rfl))
  have hMnone : parsePair M = none := by
    rcases hmk with rfl | rfl <;> decide
  have hok' : okTail (renderRest l' ++ M) := okTail_renderRest hokM
  have hpair : parsePair (natToDigits n ++ (u ++ (renderRest l' ++ M))) =
      some (n * ms, renderRest l' ++ M) := parsePair_render hmem0 n hok'
  have hps : parsePairs (renderRest l' ++ M) = (sumMs l', M) :=
    parsePairs_renderRest hMnone hokM l' hmem'
  have hlowM : M.map Char.toLower = M := by
    rcases hmk with rfl | rfl <;> decide
  have hskipM : skipWs M = M := by
    rcases hmk with rfl | rfl <;> decide
  have hlow : toLowerList (natToDigits n ++ (u ++ (renderRest l' ++ M))) =
      natToDigits n ++ (u ++ (renderRest l' ++ M)) := by
    simp only [toLowerList, List.map_append]
    rw [lower_natToDigits, unitTable_lower (u, ms) hmem0, lower_renderRest l' hmem', hlowM]
  have htl : durTail (natToDigits n ++ (u ++ (renderRest l' ++ M))) =
      some (RelAST.duration true (sumMs ((n, u, ms) :: l'))) := by
    simp only [durTail, hpair, hps, hskipM]
    have : (M = ['前'] ∨ M = ['a','g','o']) := hmk
    simp [this, sumMs]
  rw [hnorm]
  simp only [parseToAST, hlow, parseDuration_render, htl]

/-- Compound phrases with a FUTURE suffix marker sum their pairs. -/
theorem parseToAST_compound_future {l : List (Nat × List Char × Nat)} (hl : l ≠ [])
    (hmem : ∀ e ∈ l, (e.2.1, e.2.2) ∈ unitTable) {M : List Char}
    (hmk : M = ['后'] ∨ M = ['内']) :
    parseToAST (String.mk (renderCompound l ++ M)) =
      some (RelAST.duration false (sumMs l)) := by
  obtain ⟨e, l', rfl⟩ : ∃ e l', l = e :: l' := by
    cases l with
    | nil => exact absurd rfl hl
    | cons e l' => exact ⟨e, l', rfl⟩
  obtain ⟨n, u, ms⟩ := e
  have hmem0 : (u, ms) ∈ unitTable := hmem (n, u, ms) (by simp)
  have hmem' : ∀ e ∈ l', (e.2.1, e.2.2) ∈ unitTable := fun e he => hmem e (by simp [he])
  have hnorm : renderCompound ((n, u, ms) :: l') ++ M =
      natToDigits n ++ (u ++ (renderRest l' ++ M)) := by
    simp [renderCompound, renderPair, List.append_assoc]
  have hokM : okTail M := by
    rcases hmk with rfl | rfl
    · exact Or.inr (Or.inr (Or.inr (Or.inr (Or.inl rfl))))
    · exact Or.inr (Or.inr (Or.inr (Or.inr (Or.inr rfl))))
  have hMnone : parsePair M = none := by
    rcases hmk with rfl | rfl <;> decide
  have hok' : okTail (renderRest l' ++ M) := okTail_renderRest hokM
  have hpair : parsePair (natToDigits n ++ (u ++ (renderRest l' ++ M))) =
      some (n * ms, renderRest l' ++ M) := parsePair_render hmem0 n hok'
  have hps : parsePairs (renderRest l' ++ M) = (sumMs l', M) :=
    parsePairs_renderRest hMnone hokM l' hmem'
  have hlowM : M.map Char.toLower = M := by
    rcases hmk with rfl | rfl <;> decide
  have hskipM : skipWs M = M := by
    rcases hmk with rfl | rfl <;> decide
  have hMne : ¬(M = ['前'] ∨ M = ['a','g','o']) := by
    rcases hmk with rfl | rfl <;> decide
  have hlow : toLowerList (natToDigits n ++ (u ++ (renderRest l' ++ M))) =
      natToDigits n ++ (u ++ (renderRest l' ++ M)) := by
    simp only [toLowerList, List.map_append]
    rw [lower_natToDigits, unitTable_lower (u, ms) hmem0, lower_renderRest l' hmem', hlowM]
  have htl : durTail (natToDigits n ++ (u ++ (renderRest l' ++ M))) =
      some (RelAST.duration false (sumMs ((n, u, ms) :: l'))) := by
    simp only [durTail, hpair, hps, hskipM]
    have : (M = ['后'] ∨ M = ['内']) := hmk
    simp [hMne, this, sumMs]
  rw [hnorm]
  simp only [parseToAST, hlow, parseDuration_render, htl]

/-! ## FixedOffsetConverter (spec §4.2) -/

def splitOnChar (sep : Char) : List Char → List Char → List (List Char)
  | [], acc => [acc.reverse]
  | c :: cs, acc =>
    if c = sep then acc.reverse :: splitOnChar sep cs []
    else splitOnChar sep cs (c :: acc)

def fieldNat (cs : List Char) : Option Nat :=
  if cs ≠ [] ∧ ∀ c ∈ cs, c.isDigit = true then some (digitsVal cs) else none

/-- Days since 1970-01-01 of a proleptic-Gregorian calendar date (the
standard civil-from-days inversion, with floor division). -/
def daysFromCivil (y m d : Int) : Int :=
  let y2 := y - (if m ≤ 2 then 1 else 0)
  let era := y2 / 400
  let yoe := y2 - era * 400
  let mp := (m + 9) % 12
  let doy := (153 * mp + 2) / 5 + d - 1
  let doe := yoe * 365 + yoe / 4 - yoe / 100 + doy
  era * 146097 + doe - 719468

def fromUTCFields (y mo d h mi s : Int) : Int :=
  daysFromCivil y mo d * 86400000 + ((h * 60 + mi) * 60 + s) * 1000

def parseFields (s : String) : Option (Nat × Nat × Nat × Nat × Nat × Nat) :=
  match splitOnChar ' ' s.data [] with
  | [datePart, timePart] =>
    (match splitOnChar '/' datePart [], splitOnChar ':' timePart [] with
     | [ys, mos, ds], [hs, mis, ss] =>
       (match fieldNat ys, fieldNat mos, fieldNat ds, fieldNat hs, fieldNat mis,
           fieldNat ss with
        | some y, some mo, some d, some h, some mi, some sec =>
          some (y, mo, d, h, mi, sec)
        | _, _, _, _, _, _ => none)
     | _, _ => none)
  | _ => none

/-- Modelled from the spec: `toUniversalInstant` (the source's
`tranformToUTC`, §4.2), whose implementation is not among the given sources.
The input `YYYY/M/D H:m:s` is decomposed by field-by-field splitting, the
universal instant is `fromUTCFields(...) - 8h`.  The host timezone offset is
passed as an explicit parameter; per the spec the algorithm never consults
it ("never via a host-timezone-sensitive generic date constructor"), which
is what makes the result timezone-independent. -/
def tranformToUTC (_hostTzOffsetMs : Int) (s : String) : Option Int :=
  match parseFields s with
  | some (y, mo, d, h, mi, sec) =>
    some (fromUTCFields y mo d h mi sec - 8 * 3600000)
  | none => none

/-! ## Card component embeddings (from `card.tsx`, the code under src/) -/

/-- A news item as far as the diff logic is concerned: its identity and the
`extra.diff` field. -/
structure CardItem where
  id : String
  diff : Option Int
deriving DecidableEq

structure CardResponse where
  updatedTime : Int
  items : List CardItem
deriving DecidableEq

/-- What the query function of `NewsCard` (card.tsx lines 54-68) decides to
do, given `Date.now()`, the refetch time from the query key, and the cache
entry for the source id.  `useCache` performs no network fetch. -/
inductive QueryStep where
  | fetchLatest
  | useCache (r : CardResponse)
  | fetchNormal
deriving DecidableEq

def queryStep (nowMs refetchTime : Int) (cacheEntry : Option CardResponse) : QueryStep :=
  if nowMs - refetchTime < 1000 then QueryStep.fetchLatest
  else
    match cacheEntry with
    | some r => QueryStep.useCache r
    | none => QueryStep.fetchNormal

/-- JS `Array.prototype.findIndex` on the cached items: first index whose
`id` matches, `-1` if none. -/
def findIdxAux (p : CardItem → Bool) : List CardItem → Nat → Option Nat
  | [], _ => none
  | k :: rest, i => if p k then some i else findIdxAux p rest (i + 1)

def findIndexJS (cachedItems : List CardItem) (itemId : String) : Int :=
  match findIdxAux (fun k => k.id = itemId) cachedItems 0 with
  | none => -1
  | some j => (j : Int)

/-- The per-item diff assignment of card.tsx lines 72-78:
`item.extra.diff = (o === -1 ? undefined : o - i)` with `o` the cached index
and `i` the fresh index. -/
def setDiffs (cachedItems : List CardItem) : Nat → List CardItem → List CardItem
  | _, [] => []
  | i, item :: rest =>
    let o := findIndexJS cachedItems item.id
    { item with diff := if o = -1 then none else some (o - (i : Int)) } ::
      setDiffs cachedItems (i + 1) rest

/-- The diff post-processing of the fetched response (card.tsx lines 70-82):
applied only when the source type is "hottest" and a cache entry exists. -/
def processResponse (sourceType : String) (cacheEntry : Option CardResponse)
    (resp : CardResponse) : CardResponse :=
  match cacheEntry with
  | some cached =>
    if sourceType = "hottest" then
      { resp with items := setDiffs cached.items 0 resp.items }
    else resp
  | none => resp

/-- JS truthiness of the `relativeTime` string (card.tsx line 164):
`undefined` and the empty string are falsy. -/
def strTruthy : Option String → Bool
  | none => false
  | some s => s ≠ ""

/-- The `UpdatedTime` component (card.tsx lines 162-167). -/
def updatedTimeLabel (relativeTime : Option String) (isError : Bool) : String :=
  if strTruthy relativeTime then (relativeTime.getD "") ++ "更新"
  else if isError then "获取失败"
  else "加载中..."

theorem setDiffs_length (cachedItems : List CardItem) :
    ∀ (k : Nat) (items : List CardItem), (setDiffs cachedItems k items).length = items.length := by
  intro k items
  induction items generalizing k with
  | nil => rfl
  | cons item rest ih => simp [setDiffs, ih]

theorem setDiffs_get (cachedItems : List CardItem) :
    ∀ (items : List CardItem) (k i : Nat) (h : i < items.length),
      (setDiffs cachedItems k items).get ⟨i, by rw [setDiffs_length]; exact h⟩ =
        (let item := items.get ⟨i, h⟩
         let o := findIndexJS cachedItems item.id
         { item with diff := if o = -1 then none else some (o - ((k + i : Nat) : Int)) }) := by
  intro items
  induction items with
  | nil => intro k i h; exact absurd h (by simp)
  | cons item rest ih =>
    intro k i h
    cases i with
    | zero => simp [setDiffs]
    | succ j =>
      have hj : j < rest.length := by simpa using h
      have := ih (k + 1) j hj
      simp only [setDiffs, List.get_cons_succ]
      rw [this]
      have : k + 1 + j = k + (j + 1) := by omega
      simp [this]

/-! ## Claim theorems -/

/-- Claim C1: for every count `n`, every supported spelling of each unit in
the unit table, and every supported language of each direction marker,
parsing `"<n><unit-word><direction-word>"` at reference instant `now`
returns exactly `now + n * durationOf(unit)` for a FUTURE marker
(`后`, `内`, leading `in`) and `now - n * durationOf(unit)` for a PAST
marker (`前`, `ago`), with `a`/`an` accepted as the numeral 1. -/
theorem claim_C1 :
    ∀ (u : List Char) (ms : Nat), (u, ms) ∈ unitTable → ∀ (n : Nat) (now : Int),
      parseRelativeDate (String.mk (natToDigits n ++ (u ++ ['前']))) now =
          ParseOut.instant (now - (n : Int) * (ms : Int))
      ∧ parseRelativeDate (String.mk (natToDigits n ++ (u ++ [' ','a','g','o']))) now =
          ParseOut.instant (now - (n : Int) * (ms : Int))
      ∧ parseRelativeDate (String.mk (natToDigits n ++ (u ++ ['后']))) now =
          ParseOut.instant (now + (n : Int) * (ms : Int))
      ∧ parseRelativeDate (String.mk (natToDigits n ++ (u ++ ['内']))) now =
          ParseOut.instant (now + (n : Int) * (ms : Int))
      ∧ parseRelativeDate (String.mk ('i' :: 'n' :: ' ' :: (natToDigits n ++ u))) now =
          ParseOut.instant (now + (n : Int) * (ms : Int))
      ∧ parseRelativeDate (String.mk ('a' :: ' ' :: (u ++ [' ','a','g','o']))) now =
          ParseOut.instant (now - (ms : Int))
      ∧ parseRelativeDate (String.mk ('a' :: 'n' :: ' ' :: (u ++ [' ','a','g','o']))) now =
          ParseOut.instant (now - (ms : Int)) := by
  intro u ms hmem n now
  refine ⟨?_, ?_, ?_, ?_, ?_, ?_, ?_⟩
  · have h := parseToAST_single hmem n (M := ['前'])
      (Or.inr (Or.inr (Or.inr (Or.inl rfl)))) (by decide) (by decide)
    simp only [show skipWs ['前'] = ['前'] from by decide] at h
    norm_num at h
    rw [parseRD_of_ast now h]
    simp only [evalAST, ParseOut.instant.injEq]
    push_cast
    ring
  · have h := parseToAST_single hmem n (M := [' ','a','g','o'])
      (Or.inl ⟨['a','g','o'], rfl⟩) (by decide) (by decide)
    simp only [show skipWs [' ','a','g','o'] = ['a','g','o'] from by decide] at h
    norm_num at h
    rw [parseRD_of_ast now h]
    simp only [evalAST, ParseOut.instant.injEq]
    push_cast
    ring
  · have h := parseToAST_single hmem n (M := ['后'])
      (Or.inr (Or.inr (Or.inr (Or.inr (Or.inl rfl))))) (by decide) (by decide)
    simp only [show skipWs ['后'] = ['后'] from by decide] at h
    norm_num at h
    rw [parseRD_of_ast now h]
    simp only [evalAST, ParseOut.instant.injEq]
    push_cast
    ring
  · have h := parseToAST_single hmem n (M := ['内'])
      (Or.inr (Or.inr (Or.inr (Or.inr (Or.inr rfl))))) (by decide) (by decide)
    simp only [show skipWs ['内'] = ['内'] from by decide] at h
    norm_num at h
    rw [parseRD_of_ast now h]
    simp only [evalAST, ParseOut.instant.injEq]
    push_cast
    ring
  · rw [parseRD_of_ast now (parseToAST_in hmem n)]
    simp only [evalAST, ParseOut.instant.injEq]
    push_cast
    ring
  · rw [parseRD_of_ast now (parseToAST_a_ago hmem)]
    simp [evalAST]
  · rw [parseRD_of_ast now (parseToAST_an_ago hmem)]
    simp [evalAST]

theorem claim_C1_witness :
    parseRelativeDate (String.mk (natToDigits 10 ++ (['秒'] ++ ['前']))) 0 =
      ParseOut.instant (0 - (10 : Int) * (msSecond : Int)) :=
  (claim_C1 ['秒'] msSecond (by decide) 10 0).1

/-- Claim C3: compound relative durations are additive and
order-independent in effect: for every nonempty list of
`<number><unit>` pairs rendered in sequence and followed by one direction
marker, parsing returns `now` minus (PAST) or plus (FUTURE) the sum of each
pair's `number * durationOf(unit)`; in particular
`parse("1年1个月前", now) = now - year - month` and
`parse("1d 1h 1m 1s ago", now) = now - day - hour - minute - second`. -/
theorem claim_C3 :
    (∀ l : List (Nat × List Char × Nat), l ≠ [] →
      (∀ e ∈ l, (e.2.1, e.2.2) ∈ unitTable) → ∀ now : Int,
        parseRelativeDate (String.mk (renderCompound l ++ ['前'])) now =
            ParseOut.instant (now - (sumMs l : Int))
        ∧ parseRelativeDate (String.mk (renderCompound l ++ ['a','g','o'])) now =
            ParseOut.instant (now - (sumMs l : Int))
        ∧ parseRelativeDate (String.mk (renderCompound l ++ ['后'])) now =
            ParseOut.instant (now + (sumMs l : Int))
        ∧ parseRelativeDate (String.mk (renderCompound l ++ ['内'])) now =
            ParseOut.instant (now + (sumMs l : Int)))
    ∧ (∀ now : Int, parseRelativeDate "1年1个月前" now =
        ParseOut.instant (now - (msYear : Int) - (msMonth : Int)))
    ∧ (∀ now : Int, parseRelativeDate "1d 1h 1m 1s ago" now =
        ParseOut.instant
          (now - (msDay : Int) - (msHour : Int) - (msMinute : Int) - (msSecond : Int))) := by
  refine ⟨?_, ?_, ?_⟩
  · intro l hl hmem now
    refine ⟨?_, ?_, ?_, ?_⟩
    · rw [parseRD_of_ast now (parseToAST_compound_past hl hmem (Or.inl rfl))]
      simp [evalAST]
    · rw [parseRD_of_ast now (parseToAST_compound_past hl hmem (Or.inr rfl))]
      simp [evalAST]
    · rw [parseRD_of_ast now (parseToAST_compound_future hl hmem (Or.inl rfl))]
      simp [evalAST]
    · rw [parseRD_of_ast now (parseToAST_compound_future hl hmem (Or.inr rfl))]
      simp [evalAST]
  · intro now
    have p1 : parsePair ['1','年','1','个','月','前'] =
        some (1 * msYear, ['1','个','月','前']) := by decide
    have p2 : parsePair ['1','个','月','前'] = some (1 * msMonth, ['前']) := by decide
    have p3 : parsePair ['前'] = none := by decide
    have hps : parsePairs ['1','个','月','前'] = (1 * msMonth + 0, ['前']) := by
      rw [parsePairs_some p2, parsePairs_none p3]
    have hast : parseToAST "1年1个月前" =
        some (RelAST.duration true (1 * msYear + (1 * msMonth + 0))) := by
      have hlow : toLowerList (String.data "1年1个月前") = ['1','年','1','个','月','前'] := by
        decide
      have hin : pfxOf ['i','n',' '] ['1','年','1','个','月','前'] = none := by decide
      have hwi : pfxOf ['w','i','t','h','i','n',' '] ['1','年','1','个','月','前'] = none := by
        decide
      simp only [parseToAST, hlow, parseDuration, hin, hwi, durTail, p1, hps]
      simp [skipWs]
    rw [parseRD_of_ast now hast]
    simp only [evalAST, ParseOut.instant.injEq, msYear, msMonth, msDay]
    push_cast
    ring
  · intro now
    have p1 : parsePair ['1','d',' ','1','h',' ','1','m',' ','1','s',' ','a','g','o'] =
        some (1 * msDay, [' ','1','h',' ','1','m',' ','1','s',' ','a','g','o']) := by decide
    have p2 : parsePair [' ','1','h',' ','1','m',' ','1','s',' ','a','g','o'] =
        some (1 * msHour, [' ','1','m',' ','1','s',' ','a','g','o']) := by decide
    have p3 : parsePair [' ','1','m',' ','1','s',' ','a','g','o'] =
        some (1 * msMinute, [' ','1','s',' ','a','g','o']) := by decide
    have p4 : parsePair [' ','1','s',' ','a','g','o'] =
        some (1 * msSecond, [' ','a','g','o']) := by decide
    have p5 : parsePair [' ','a','g','o'] = none := by decide
    have hps : parsePairs [' ','1','h',' ','1','m',' ','1','s',' ','a','g','o'] =
        (1 * msHour + (1 * msMinute + (1 * msSecond + 0)), [' ','a','g','o']) := by
      rw [parsePairs_some p2, parsePairs_some p3, parsePairs_some p4, parsePairs_none p5]
    have hast : parseToAST "1d 1h 1m 1s ago" =
        some (RelAST.duration true
          (1 * msDay + (1 * msHour + (1 * msMinute + (1 * msSecond + 0))))) := by
      have hlow : toLowerList (String.data "1d 1h 1m 1s ago") =
          ['1','d',' ','1','h',' ','1','m',' ','1','s',' ','a','g','o'] := by decide
      have hin : pfxOf ['i','n',' ']
          ['1','d',' ','1','h',' ','1','m',' ','1','s',' ','a','g','o'] = none := by decide
      have hwi : pfxOf ['w','i','t','h','i','n',' ']
          ['1','d',' ','1','h',' ','1','m',' ','1','s',' ','a','g','o'] = none := by decide
      simp only [parseToAST, hlow, parseDuration, hin, hwi, durTail, p1, hps]
      simp [skipWs]
    rw [parseRD_of_ast now hast]
    simp only [evalAST, ParseOut.instant.injEq, msDay, msHour, msMinute, msSecond]
    push_cast
    ring

theorem claim_C3_witness :
    parseRelativeDate (String.mk (renderCompound [(2, ['秒'], msSecond)] ++ ['前'])) 0 =
      ParseOut.instant (0 - (sumMs [(2, ['秒'], msSecond)] : Int)) :=
  ((claim_C3.1 [(2, ['秒'], msSecond)] (by decide) (by decide) 0)).1

/-- Claim C7: a `<number><unit>` duration phrase with no recognized
direction marker is not given a default PAST direction: it is a parse
failure, and the input is returned unchanged. -/
theorem claim_C7 :
    ∀ (u : List Char) (ms : Nat), (u, ms) ∈ unitTable → ∀ (n : Nat) (now : Int),
      parseRelativeDate (String.mk (natToDigits n ++ u)) now =
        ParseOut.text (String.mk (natToDigits n ++ u)) := by
  intro u ms hmem n now
  have h := parseToAST_single hmem n (M := []) (Or.inr (Or.inl rfl)) (by decide) (by decide)
  have h2 : parseToAST (String.mk (natToDigits n ++ u)) = none := by
    rw [List.append_nil] at h
    rw [h]
    simp [skipWs]
  exact parseRD_of_none now h2

theorem claim_C7_witness :
    parseRelativeDate (String.mk (natToDigits 5 ++ ['秒'])) 0 =
      ParseOut.text (String.mk (natToDigits 5 ++ ['秒'])) :=
  claim_C7 ['秒'] msSecond (by decide) 5 0

theorem weekdayTable_range : ∀ e ∈ weekdayTable, 1 ≤ e.2 ∧ e.2 ≤ 7 := by decide

/-- Claim C2: `tranformToUTC` maps `"2024/10/3 12:26:16"` to the epoch
millisecond value 1727929576000, and the result is identical no matter which
host timezone offset the process is configured with (UTC, UTC+8, UTC-5, or
any other): the algorithm never reads the host timezone parameter. -/
theorem claim_C2 :
    tranformToUTC 0 "2024/10/3 12:26:16" = some 1727929576000
    ∧ tranformToUTC 28800000 "2024/10/3 12:26:16" = some 1727929576000
    ∧ tranformToUTC (-18000000) "2024/10/3 12:26:16" = some 1727929576000
    ∧ ∀ (tz1 tz2 : Int) (s : String), tranformToUTC tz1 s = tranformToUTC tz2 s := by
  refine ⟨by decide, by decide, by decide, fun tz1 tz2 s => rfl⟩

/-- Claim C4: a calendar anchor with no clock suffix resolves to the start
of day (00:00:00.000) of the anchor date; a clock suffix adds the parsed
hour/minute/second offset, where "pm" adds 12 to the hour except when the
hour is 12: `parse("今天", now)` is start-of-day of `now`,
`parse("Today 08:00", now)` adds 8 hours, `parse("Today, 8:00 pm", now)`
adds 20 hours, and `parse("Today, 12:00 pm", now)` adds 12 hours. -/
theorem claim_C4 : ∀ now : Int,
    parseRelativeDate "今天" now = ParseOut.instant (startOfDay now)
    ∧ parseRelativeDate "Today 08:00" now =
        ParseOut.instant (startOfDay now + 8 * (msHour : Int))
    ∧ parseRelativeDate "Today, 8:00 pm" now =
        ParseOut.instant (startOfDay now + 20 * (msHour : Int))
    ∧ parseRelativeDate "Today, 12:00 pm" now =
        ParseOut.instant (startOfDay now + 12 * (msHour : Int)) := by
  intro now
  refine ⟨?_, ?_, ?_, ?_⟩
  · rw [parseRD_of_ast now
      (show parseToAST "今天" = some (RelAST.anchor 0 none) from by decide)]
    simp [evalAST]
  · rw [parseRD_of_ast now
      (show parseToAST "Today 08:00" = some (RelAST.anchor 0 (some 28800000)) from by decide)]
    simp only [evalAST, Option.getD, ParseOut.instant.injEq, msHour]
    push_cast
    ring
  · rw [parseRD_of_ast now
      (show parseToAST "Today, 8:00 pm" = some (RelAST.anchor 0 (some 72000000)) from by
        decide)]
    simp only [evalAST, Option.getD, ParseOut.instant.injEq, msHour]
    push_cast
    ring
  · rw [parseRD_of_ast now
      (show parseToAST "Today, 12:00 pm" = some (RelAST.anchor 0 (some 43200000)) from by
        decide)]
    simp only [evalAST, Option.getD, ParseOut.instant.injEq, msHour]
    push_cast
    ring

/-- Claim C5 counterexample: 259200000 ms = 1970-01-04 00:00:00 UTC, a
Sunday.  Parsing the Sunday name `星期天` with that reference instant
resolves to that very calendar day (the result *is* `now`'s own start of
day), not to 7 days prior — refuting "the resolved date is never now's own
calendar date". -/
theorem claim_C5_counterexample :
    parseRelativeDate "星期天" 259200000 = ParseOut.instant 259200000
    ∧ startOfDay 259200000 = 259200000
    ∧ weekdayOf 259200000 = 0
    ∧ (259200000 : Int) ≠ 259200000 - 7 * 86400000 := by
  refine ⟨by decide, by decide, by decide, by decide⟩

/-- Claim C5 as amended: for every weekday-name input, the resolved instant
is start-of-day of `now` plus `weekdayOffset (weekdayOf now) d` days, which
is the most recent matching calendar day strictly before today (between 7
and 1 days prior, 7 when today's weekday matches the name) — EXCEPT when
the named weekday is Sunday (index 7 in the table, as in the repository's
own test helper) and `now` falls on a Sunday, in which case the offset is 0
and the resolved date is today itself. -/
theorem claim_C5_amended :
    ∀ (u : List Char) (d : Nat), (u, d) ∈ weekdayTable → ∀ now : Int,
      parseRelativeDate (String.mk u) now =
          ParseOut.instant (startOfDay now + weekdayOffset (weekdayOf now) d * 86400000)
      ∧ (¬(d = 7 ∧ weekdayOf now = 0) →
          -7 ≤ weekdayOffset (weekdayOf now) d ∧ weekdayOffset (weekdayOf now) d ≤ -1)
      ∧ (d = 7 ∧ weekdayOf now = 0 → weekdayOffset (weekdayOf now) d = 0)
      ∧ (d ≤ 6 → (d : Int) = weekdayOf now → weekdayOffset (weekdayOf now) d = -7) := by
  intro u d hmem now
  have hrange : 1 ≤ d ∧ d ≤ 7 := weekdayTable_range (u, d) hmem
  have hw0 : (0 : Int) ≤ weekdayOf now := Int.emod_nonneg _ (by norm_num)
  have hw7 : weekdayOf now < 7 := Int.emod_lt_of_pos _ (by norm_num)
  refine ⟨?_, ?_, ?_, ?_⟩
  · have hast : parseToAST (String.mk u) = some (RelAST.wday d none) := by
      fin_cases hmem <;> decide
    rw [parseRD_of_ast now hast]
    simp [evalAST]
  · intro hne
    unfold weekdayOffset
    split <;> omega
  · rintro ⟨h7, hw⟩
    subst h7
    rw [hw]
    decide
  · intro hd6 heq
    unfold weekdayOffset
    rw [← heq, if_neg (by omega)]
    ring

theorem claim_C5_amended_witness :
    parseRelativeDate (String.mk ['星','期','一']) 0 =
      ParseOut.instant (startOfDay 0 + weekdayOffset (weekdayOf 0) 1 * 86400000) :=
  (claim_C5_amended ['星','期','一'] 1 (by decide) 0).1

/-- Claim C6: parsing never throws; an input matching no grammar rule is
returned verbatim — in particular `parse("RSSHub", now)` is the literal
string `"RSSHub"` — and every parse either produces an instant from a
matched rule or passes the input through unchanged. -/
theorem claim_C6 : ∀ now : Int,
    parseRelativeDate "RSSHub" now = ParseOut.text "RSSHub"
    ∧ ∀ s : String,
      (∃ a, parseToAST s = some a ∧
        parseRelativeDate s now = ParseOut.instant (evalAST a now))
      ∨ parseRelativeDate s now = ParseOut.text s := by
  intro now
  refine ⟨parseRD_of_none now (by decide), ?_⟩
  intro s
  cases h : parseToAST s with
  | some a => exact Or.inl ⟨a, rfl, parseRD_of_ast now h⟩
  | none => exact Or.inr (parseRD_of_none now h)

/-- Claim C8: when the refresh request is not recent
(`Date.now() - refetchTime ≥ 1000` ms) and the cache holds an entry for the
source id, the query function returns the cached response and performs no
network fetch; a refresh within the last second instead bypasses the cache
and fetches the latest data. -/
theorem claim_C8 :
    (∀ (nowMs refetchTime : Int) (r : CardResponse) (cacheEntry : Option CardResponse),
      1000 ≤ nowMs - refetchTime → cacheEntry = some r →
      queryStep nowMs refetchTime cacheEntry = QueryStep.useCache r)
    ∧ (∀ (nowMs refetchTime : Int) (cacheEntry : Option CardResponse),
      nowMs - refetchTime < 1000 →
      queryStep nowMs refetchTime cacheEntry = QueryStep.fetchLatest) := by
  constructor
  · intro nowMs refetchTime r cacheEntry h1 h2
    subst h2
    simp [queryStep, show ¬(nowMs - refetchTime < 1000) from by omega]
  · intro nowMs refetchTime cacheEntry h
    simp [queryStep, h]

theorem claim_C8_witness :
    queryStep 2000 0 (some ⟨0, []⟩) = QueryStep.useCache ⟨0, []⟩
    ∧ queryStep 500 0 (some ⟨0, []⟩) = QueryStep.fetchLatest :=
  ⟨claim_C8.1 2000 0 ⟨0, []⟩ (some ⟨0, []⟩) (by norm_num) rfl,
   claim_C8.2 500 0 (some ⟨0, []⟩) (by norm_num)⟩

theorem findIdxAux_none_iff (p : CardItem → Bool) :
    ∀ (l : List CardItem) (i : Nat),
      findIdxAux p l i = none ↔ ∀ k ∈ l, p k = false := by
  intro l
  induction l with
  | nil => intro i; simp [findIdxAux]
  | cons a l ih =>
    intro i
    simp only [findIdxAux]
    split
    · rename_i hp
      simp only [List.mem_cons]
      constructor
      · intro h; exact absurd h (by simp)
      · intro h
        have := h a (Or.inl rfl)
        rw [hp] at this
        exact absurd this (by simp)
    · rename_i hp
      rw [ih (i + 1)]
      simp only [List.mem_cons]
      constructor
      · intro h k hk
        rcases hk with rfl | hk
        · exact Bool.not_eq_true _ ▸ (by simpa using hp)
        · exact h k hk
      · intro h k hk
        exact h k (Or.inr hk)

theorem setDiffs_getopt (cachedItems : List CardItem) :
    ∀ (items : List CardItem) (k i : Nat),
      (setDiffs cachedItems k items).get? i =
        (items.get? i).map (fun item =>
          let o := findIndexJS cachedItems item.id
          { item with diff := if o = -1 then none else some (o - ((k + i : Nat) : Int)) }) := by
  intro items
  induction items with
  | nil => intro k i; simp [setDiffs]
  | cons item rest ih =>
    intro k i
    cases i with
    | zero => simp [setDiffs]
    | succ j =>
      have h1 : k + 1 + j = k + (j + 1) := by omega
      simp only [setDiffs, List.get?_cons_succ]
      rw [ih (k + 1) j, h1]

/-- Claim C9: for a "hottest" source with a cached response, each fetched
item's `extra.diff` is its index in the cached item list minus its index in
the fresh list, and is undefined when its id does not occur in the cached
list; with no cache entry, or for a non-hottest source type, the response is
returned with no diff applied. -/
theorem claim_C9 :
    (∀ (cached resp : CardResponse) (i : Nat),
      (processResponse "hottest" (some cached) resp).items.get? i =
        (resp.items.get? i).map (fun item =>
          let o := findIndexJS cached.items item.id
          { item with diff := if o = -1 then none else some (o - (i : Int)) }))
    ∧ (∀ (cached : CardResponse) (itemId : String),
        findIndexJS cached.items itemId = -1 ↔ ∀ k ∈ cached.items, k.id ≠ itemId)
    ∧ (∀ (t : String) (resp : CardResponse), processResponse t none resp = resp)
    ∧ (∀ (t : String) (cached resp : CardResponse), t ≠ "hottest" →
        processResponse t (some cached) resp = resp) := by
  refine ⟨?_, ?_, ?_, ?_⟩
  · intro cached resp i
    have h := setDiffs_getopt cached.items resp.items 0 i
    simp only [Nat.zero_add] at h
    simpa [processResponse] using h
  · intro cached itemId
    unfold findIndexJS
    cases hfi : findIdxAux (fun k => k.id = itemId) cached.items 0 with
    | none =>
      have hall := (findIdxAux_none_iff (fun k => k.id = itemId) cached.items 0).mp hfi
      constructor
      · intro _ k hk
        simpa using hall k hk
      · intro _
        rfl
    | some j =>
      constructor
      · intro h
        have hj : (j : Int) = -1 := h
        omega
      · intro h
        have : findIdxAux (fun k => k.id = itemId) cached.items 0 = none := by
          rw [findIdxAux_none_iff]
          intro k hk
          simpa using h k hk
        rw [this] at hfi
        exact absurd hfi (by simp)
  · intro t resp
    rfl
  · intro t cached resp h
    simp [processResponse, h]

theorem claim_C9_witness :
    (processResponse "hottest" (some ⟨0, [⟨"a", none⟩]⟩) ⟨0, [⟨"b", none⟩, ⟨"a", none⟩]⟩).items.get? 1 =
      some ⟨"a", some (-1)⟩
    ∧ processResponse "realtime" (some ⟨0, [⟨"a", none⟩]⟩) ⟨0, [⟨"b", none⟩]⟩ =
        ⟨0, [⟨"b", none⟩]⟩ := by
  constructor
  · have h := claim_C9.1 ⟨0, [⟨"a", none⟩]⟩ ⟨0, [⟨"b", none⟩, ⟨"a", none⟩]⟩ 1
    rw [h]
    decide
  · exact claim_C9.2.2.2 "realtime" ⟨0, [⟨"a", none⟩]⟩ ⟨0, [⟨"b", none⟩]⟩ (by decide)

/-- Claim C10: the UpdatedTime label resolves in a fixed precedence order:
a non-empty relative-time string renders as `"<it>更新"` even when the fetch
errored; only with no relative time available does an error render
`"获取失败"`; otherwise the label is `"加载中..."`. -/
theorem claim_C10 :
    (∀ (s : String) (isErr : Bool), s ≠ "" →
      updatedTimeLabel (some s) isErr = s ++ "更新")
    ∧ (∀ isErr : Bool,
        updatedTimeLabel none isErr = if isErr then "获取失败" else "加载中...")
    ∧ (∀ isErr : Bool,
        updatedTimeLabel (some "") isErr = if isErr then "获取失败" else "加载中...") := by
  refine ⟨?_, ?_, ?_⟩
  · intro s isErr h
    simp [updatedTimeLabel, strTruthy, h]
  · intro isErr
    simp [updatedTimeLabel, strTruthy]
  · intro isErr
    simp [updatedTimeLabel, strTruthy]

theorem claim_C10_witness :
    updatedTimeLabel (some "1分钟前") true = "1分钟前" ++ "更新" :=
  claim_C10.1 "1分钟前" true (by decide)

end Card
